import Mathlib

/-!
Verification development for the RADEM event/anomaly-detection core.

The definitions below are shallow embeddings of the Python source files
`src/radem/events/onset.py`, `src/radem/events/background.py` and
`src/src/radem/events/background.py`.  Machine floats are modelled as real
numbers; a float value of NaN (arising from pandas rolling statistics with
insufficient history, or from a zero standard deviation in a division) is
modelled with `Option` (`none` = NaN), mirroring the IEEE rule that every
ordered comparison against NaN is false.  Pure Python/numpy functions become
Lean functions; the stateful scans become explicit state-passing recursions.
`pandas`/`numpy` positional indices are `ℕ`.
-/

set_option maxHeartbeats 1000000

/-! ### Interval extractor: `intervals_from_mask` (src/src/radem/events/background.py) -/

/-- `mask.astype(int)` for one boolean: `True ↦ 1`, `False ↦ 0`. -/
def boolInt (b : Bool) : ℤ := if b then 1 else 0

/-- `np.diff` on a list of integers: successive differences. -/
def npDiff : List ℤ → List ℤ
  | a :: b :: r => (b - a) :: npDiff (b :: r)
  | _ => []

/-- `np.diff(mask.astype(int))`. -/
def maskChanges (m : List Bool) : List ℤ := npDiff (m.map boolInt)

/-- Helper for `npWhere`: ascending indices (starting at `i`) of entries equal
to `v`. -/
def idxWhere (v : ℤ) : ℕ → List ℤ → List ℕ
  | _, [] => []
  | i, x :: r => if x = v then i :: idxWhere v (i + 1) r else idxWhere v (i + 1) r

/-- `np.where(l == v)[0]`: the ascending list of indices at which `l` holds
value `v`. -/
def npWhere (v : ℤ) (l : List ℤ) : List ℕ := idxWhere v 0 l

/-- `intervals_from_mask(mask)` from `src/src/radem/events/background.py`.

The function unconditionally reads `mask[0]` and `mask[-1]`, so a length-0
mask raises `IndexError`; this is modelled by returning `none`.  Otherwise it
returns `list(zip(starts, ends))` where `starts` are the positions after a
`0 → 1` change (with `0` prepended when the mask starts `True`) and `ends`
are the positions after a `1 → 0` change (with `len(mask)` appended when the
mask ends `True`). -/
def intervals_from_mask : List Bool → Option (List (ℕ × ℕ))
  | [] => none
  | b :: rest =>
      let changes := maskChanges (b :: rest)
      let starts0 := (npWhere 1 changes).map (· + 1)
      let ends0 := (npWhere (-1) changes).map (· + 1)
      let starts := if b then 0 :: starts0 else starts0
      let ends := if rest.getLastD b then ends0 ++ [rest.length + 1] else ends0
      some (starts.zip ends)

/-- Reference form of the same scan: maximal runs of `true` in the mask as
half-open index pairs `(start, stop)`.  The first argument is the start of
the currently open run (if any), the second the current position. -/
def runsFrom : Option ℕ → ℕ → List Bool → List (ℕ × ℕ)
  | none, _, [] => []
  | some s, i, [] => [(s, i)]
  | none, i, c :: r => if c then runsFrom (some i) (i + 1) r else runsFrom none (i + 1) r
  | some s, i, c :: r =>
      if c then runsFrom (some s) (i + 1) r else (s, i) :: runsFrom none (i + 1) r

/-- Indices (from `i` on) at which a run of `true` starts, given that the
element before position `i` was `prev`. -/
def startsFrom (prev : Bool) (i : ℕ) : List Bool → List ℕ
  | [] => []
  | c :: r => (if c && !prev then [i] else []) ++ startsFrom c (i + 1) r

/-- Indices (from `i` on) at which a run of `true` stops (exclusive end),
given that the element before position `i` was `prev`; a run still open at
the end of the list stops at the index one past the last element. -/
def endsFrom (prev : Bool) (i : ℕ) : List Bool → List ℕ
  | [] => if prev then [i] else []
  | c :: r => (if prev && !c then [i] else []) ++ endsFrom c (i + 1) r

/-- Like `endsFrom` but without the final close at the end of the list:
only the stops caused by an explicit `true → false` change. -/
def endsFromNoClose (prev : Bool) (i : ℕ) : List Bool → List ℕ
  | [] => []
  | c :: r => (if prev && !c then [i] else []) ++ endsFromNoClose c (i + 1) r

/-- Rebuild a boolean mask of length `n` from half-open index intervals:
position `j` is `true` iff some interval covers it. -/
def maskOfIntervals (n : ℕ) (L : List (ℕ × ℕ)) : List Bool :=
  (List.range n).map (fun j => L.any (fun p => decide (p.1 ≤ j) && decide (j < p.2)))

/-! ### Rolling-threshold detector: `find_events`
(src/radem/events/background.py, duplicated in src/src/radem/events/background.py)

`find_events` scans the boolean series `is_event`; on the first `true` it
records the current position as the event start, on the first `false` after a
run it appends `(start, i - 1)`, and when the scan ends inside a run it
appends `(start, n - 1)`.  The returned pairs are positions into
`series.index` (closed index intervals). -/

/-- The `find_events` scan: maximal runs of `true` as closed index pairs. -/
def closedRunsFrom : Option ℕ → ℕ → List Bool → List (ℕ × ℕ)
  | none, _, [] => []
  | some s, i, [] => [(s, i - 1)]
  | none, i, c :: r =>
      if c then closedRunsFrom (some i) (i + 1) r else closedRunsFrom none (i + 1) r
  | some s, i, c :: r =>
      if c then closedRunsFrom (some s) (i + 1) r
      else (s, i - 1) :: closedRunsFrom none (i + 1) r

/-- The trailing window of width `w` ending at position `i`: `v[i+1-w .. i]`. -/
def windowSlice (v : List ℝ) (w i : ℕ) : List ℝ := (v.drop (i + 1 - w)).take w

/-- `series.rolling(window=w).mean()` at position `i`; `none` models the NaN
produced while fewer than `w` observations are available. -/
noncomputable def rollingMean (v : List ℝ) (w i : ℕ) : Option ℝ :=
  if w ≤ i + 1 then some ((windowSlice v w i).sum / w) else none

/-- `series.rolling(window=w).std()` at position `i` (pandas sample standard
deviation, `ddof=1`); `none` models NaN: fewer than `w` observations, or the
`0/0` arising for `w = 1`. -/
noncomputable def rollingStd (v : List ℝ) (w i : ℕ) : Option ℝ :=
  if 2 ≤ w ∧ w ≤ i + 1 then
    some (Real.sqrt (((windowSlice v w i).map
      (fun x => (x - (windowSlice v w i).sum / w) ^ 2)).sum / ((w : ℝ) - 1)))
  else none

/-- The boolean series `is_event = series > moving_avg + critical_value * moving_std`;
a comparison against a NaN statistic is `False`. -/
noncomputable def isEventB (v : List ℝ) (w : ℕ) (cv : ℝ) (i : ℕ) : Bool :=
  match rollingMean v w i, rollingStd v w i with
  | some m, some s => decide (m + cv * s < v.getD i 0)
  | _, _ => false

/-- `find_events(series, window, critical_value)`: the event intervals, as
closed pairs of positions into `series.index`. -/
noncomputable def find_events (v : List ℝ) (w : ℕ) (cv : ℝ) : List (ℕ × ℕ) :=
  closedRunsFrom none 0 ((List.range v.length).map (isEventB v w cv))

/-- The interval extractor as the spec sentence describes it: intervals are
closed `(start timestamp, end timestamp)` pairs, closing at the timestamp of
the index before the first `false` after a run, or at the last timestamp.
(Refinement-side definition following the spec wording of §4.1/§4.2, for
comparison with `intervals_from_mask`.) -/
def specClosedIntervals (m : List Bool) (ts : List ℕ) : List (ℕ × ℕ) :=
  (closedRunsFrom none 0 m).map (fun p => (ts.getD p.1 0, ts.getD p.2 0))

/-! ### Noise mask / stability filter: `noise_mask` (src/src/radem/events/background.py) -/

/-- `df["value"].rolling(window=w, center=True).mean()` at position `i`:
the trailing window relabelled at its center (shifted left by `w / 2`);
`none` models the NaN rows at either edge. -/
noncomputable def centeredRollingMean (v : List ℝ) (w i : ℕ) : Option ℝ :=
  if i + w / 2 < v.length then rollingMean v w (i + w / 2) else none

/-- Centered rolling sample standard deviation, as `centeredRollingMean`. -/
noncomputable def centeredRollingStd (v : List ℝ) (w i : ℕ) : Option ℝ :=
  if i + w / 2 < v.length then rollingStd v w (i + w / 2) else none

/-- `z_scores_forward[i]`: zero-initialized, written only for
`offset ≤ i < n - offset`; `none` models a NaN/inf entry (NaN statistics or a
zero standard deviation in the denominator), whose `< 3` comparison is false. -/
noncomputable def zScoreF (v : List ℝ) (rw off i : ℕ) : Option ℝ :=
  if off ≤ i ∧ i + off < v.length then
    match centeredRollingMean v rw i, centeredRollingMean v rw (i + off),
        centeredRollingStd v rw (i + off) with
    | some a, some b, some s => if s = 0 then none else some ((a - b) / s)
    | _, _, _ => none
  else some 0

/-- `z_scores_backward[i]`, as `zScoreF` with the offset subtracted. -/
noncomputable def zScoreB (v : List ℝ) (rw off i : ℕ) : Option ℝ :=
  if off ≤ i ∧ i + off < v.length then
    match centeredRollingMean v rw i, centeredRollingMean v rw (i - off),
        centeredRollingStd v rw (i - off) with
    | some a, some b, some s => if s = 0 then none else some ((a - b) / s)
    | _, _, _ => none
  else some 0

/-- `|z| < 3`, false for the NaN/inf case. -/
noncomputable def zAccept : Option ℝ → Bool
  | some z => decide (|z| < 3)
  | none => false

/-- The per-offset acceptance vector
`(np.abs(z_scores_forward) < 3) & (np.abs(z_scores_backward) < 3)`. -/
noncomputable def offsetMask (v : List ℝ) (rw off : ℕ) : List Bool :=
  (List.range v.length).map (fun i => zAccept (zScoreF v rw off i) && zAccept (zScoreB v rw off i))

/-- `noise_mask(df, rolling_window, offsets)`: starts from all-accepted and
ANDs in each offset's acceptance vector (`true` = accepted as quiet
background).  The optional `full_interval` restriction is a pre-filter on the
input series and is not modelled. -/
noncomputable def noise_mask (v : List ℝ) (rw : ℕ) (offsets : List ℕ) : List Bool :=
  offsets.foldl (fun mask off => mask.zipWith (· && ·) (offsetMask v rw off))
    (List.replicate v.length true)

/-! ### CUSUM onset detector: `detect_onset` (src/radem/events/onset.py) -/

/-- Python `round` on a float: round half to even (banker's rounding). -/
noncomputable def pythonRound (x : ℝ) : ℤ :=
  if Int.fract x = 1 / 2 then (if ⌊x⌋ % 2 = 0 then ⌊x⌋ else ⌊x⌋ + 1) else round x

/-- The control parameter
`k = (uncertainty_limit - mean) / (np.log1p(uncertainty_limit) - np.log1p(mean))`
with `uncertainty_limit = mean + critical_value * sigma`. -/
noncomputable def onsetK (mean sigma cv : ℝ) : ℝ :=
  (mean + cv * sigma - mean) / (Real.log (1 + (mean + cv * sigma)) - Real.log (1 + mean))

/-- `hastiness = 1 if k < 1.0 else 2`. -/
noncomputable def onsetHastiness (mean sigma cv : ℝ) : ℝ :=
  if onsetK mean sigma cv < 1 then 1 else 2

/-- The simultaneous tuple assignment of onset.py line 49, one scan step:
`previous_cusum, cusum = cusum, max(0, normalized_flux - round(k) + previous_cusum)`
on the state `(previous_cusum, cusum)`.  Note that the right-hand side is
evaluated before either variable is updated, so the `previous_cusum` being
added is the value held *before* this step. -/
noncomputable def onsetStep (mean sigma : ℝ) (rk : ℤ) (s : ℝ × ℝ) (v : ℝ) : ℝ × ℝ :=
  (s.2, max 0 ((v - mean) / sigma - (rk : ℝ) + s.1))

/-- One scan step on the full loop state `((previous_cusum, cusum), alert)`. -/
noncomputable def onsetTraceStep (mean sigma : ℝ) (rk : ℤ) (hastiness : ℝ)
    (st : (ℝ × ℝ) × ℕ) (v : ℝ) : (ℝ × ℝ) × ℕ :=
  (onsetStep mean sigma rk st.1 v,
    if hastiness < (onsetStep mean sigma rk st.1 v).2 then st.2 + 1 else 0)

/-- The `for i in range(1, len(series))` loop of `detect_onset`, early-exiting
with `series.index[i - alert]` (returned as a position) when the alert counter
reaches `window`. -/
noncomputable def onsetLoop (mean sigma : ℝ) (rk : ℤ) (hastiness : ℝ) (window : ℕ) :
    (ℝ × ℝ) × ℕ → ℕ → List ℝ → Option ℕ
  | _, _, [] => none
  | st, i, v :: rest =>
      let st2 := onsetTraceStep mean sigma rk hastiness st v
      if st2.2 = window then some (i - st2.2)
      else onsetLoop mean sigma rk hastiness window st2 (i + 1) rest

/-- The `ValueError` raised when the background mean equals the uncertainty
limit. -/
inductive OnsetError where
  | degenerateParameters

/-- `detect_onset(series, mean, sigma, window, critical_value)` from
src/radem/events/onset.py.  The returned position stands for the timestamp
`series.index[i - alert]`; `none` means no onset was detected. -/
noncomputable def detect_onset (v : List ℝ) (mean sigma : ℝ) (window : ℕ)
    (critical_value : ℝ) : Except OnsetError (Option ℕ) :=
  if mean = mean + critical_value * sigma then .error .degenerateParameters
  else .ok (onsetLoop mean sigma (pythonRound (onsetK mean sigma critical_value))
    (onsetHastiness mean sigma critical_value) window ((0, 0), 0) 1 (v.drop 1))

/-- The successive `(previous_cusum, cusum)` states traversed by the scan,
starting from `(0, 0)`, one entry per visited prefix of the scanned tail. -/
noncomputable def cusumStatesAux (mean sigma : ℝ) (rk : ℤ) : ℝ × ℝ → List ℝ → List (ℝ × ℝ)
  | s, [] => [s]
  | s, x :: r => s :: cusumStatesAux mean sigma rk (onsetStep mean sigma rk s x) r

/-- The cusum value after each scan step (`cusumList v ...`, entry `i` is the
cusum produced at step `i`, entry `0` the initial value `0`). -/
noncomputable def cusumList (v : List ℝ) (mean sigma : ℝ) (rk : ℤ) : List ℝ :=
  (cusumStatesAux mean sigma rk (0, 0) (v.drop 1)).map Prod.snd

/-- The cusum sequence claim C1 asserts: the lag-1 recurrence
`cusum_i = max(0, normalized_i - round(k) + cusum_(i-1))` with `cusum_0 = 0`
(refinement-side definition following the claim wording, for comparison with
`cusumList`). -/
noncomputable def lag1CusumAux (mean sigma : ℝ) (rk : ℤ) : ℝ → List ℝ → List ℝ
  | _, [] => []
  | c, x :: r =>
      max 0 ((x - mean) / sigma - (rk : ℝ) + c) ::
        lag1CusumAux mean sigma rk (max 0 ((x - mean) / sigma - (rk : ℝ) + c)) r

/-- The lag-1 cusum list asserted by claim C1, aligned with `cusumList`. -/
noncomputable def lag1CusumList (v : List ℝ) (mean sigma : ℝ) (rk : ℤ) : List ℝ :=
  0 :: lag1CusumAux mean sigma rk 0 (v.drop 1)

/-! ### Background-relative anomaly detector (spec-modelled)

Modelled from the spec: `detect_anomalies` (spec §4.3).  The concrete
implementations `autosplit_gauss`, `autosplit_gauss_mask`, `autosplit_poisson`
and `autosplit_poisson_mask` are imported by `src/src/radem/events/__init__.py`
but their definitions are not present under `src/`; the definitions below
follow the spec's words: fixed background statistics computed once, a sliding
window over the signal, a z-score per window start, and the whole window
marked anomalous when `|z| > threshold`. -/

/-- The distributional model tag of spec §4.3. -/
inductive BgModel where
  | gaussian
  | poisson

/-- `DegenerateBackground`: zero background variance/rate. -/
inductive BgError where
  | degenerateBackground

/-- Mean of a sample. -/
noncomputable def listMean (l : List ℝ) : ℝ := l.sum / l.length

/-- Modelled from the spec: the background standard deviation (population
form, `sqrt(mean((x - mean)^2))`). -/
noncomputable def listStd (l : List ℝ) : ℝ :=
  Real.sqrt ((l.map (fun x => (x - listMean l) ^ 2)).sum / l.length)

/-- Mean of the window `signal[i .. i+ws)`. -/
noncomputable def windowMean (signal : List ℝ) (ws i : ℕ) : ℝ :=
  ((signal.drop i).take ws).sum / ws

/-- Modelled from the spec: position `j` is anomalous iff some window start
`i ∈ [0, len(signal) - ws]` covers `j` and the window's z-score exceeds the
threshold in absolute value. -/
noncomputable def anomalyMask (signal : List ℝ) (ws : ℕ) (z : ℝ → ℝ) (th : ℝ) : List Bool :=
  (List.range signal.length).map (fun j =>
    (List.range (signal.length + 1 - ws)).any (fun i =>
      decide (i ≤ j) && decide (j < i + ws) && decide (th < |z (windowMean signal ws i)|)))

/-- Modelled from the spec: `detect_anomalies(background_sample, signal,
window_size, threshold, model)` (spec §4.3); fails with
`DegenerateBackground` when the background std (Gaussian) or rate (Poisson)
is zero. -/
noncomputable def detect_anomalies (background signal : List ℝ) (window_size : ℕ)
    (threshold : ℝ) (model : BgModel) : Except BgError (List Bool) :=
  match model with
  | .gaussian =>
      if listStd background = 0 then .error .degenerateBackground
      else .ok (anomalyMask signal window_size
        (fun wm => (wm - listMean background) / listStd background) threshold)
  | .poisson =>
      if listMean background = 0 then .error .degenerateBackground
      else .ok (anomalyMask signal window_size
        (fun wm => (wm - listMean background) /
          Real.sqrt (listMean background / (window_size : ℝ))) threshold)

example : intervals_from_mask [true, false, true, true] = some [(0, 1), (2, 4)] := by decide
example : intervals_from_mask [false, true, true, false, true] = some [(1, 3), (4, 5)] := by decide
example : intervals_from_mask [false, false] = some [] := by decide
example : intervals_from_mask [true] = some [(0, 1)] := by decide
example : intervals_from_mask [] = none := by decide
example : runsFrom none 0 [true, false, true, true] = [(0, 1), (2, 4)] := by decide
example : maskOfIntervals 4 [(0, 1), (2, 4)] = [true, false, true, true] := by decide

/-! ### Bridge: the numpy pipeline equals the run scan -/

theorem idxWhere_shift (v : ℤ) (l : List ℤ) (i j : ℕ) :
    idxWhere v (i + j) l = (idxWhere v i l).map (· + j) := by
  induction l generalizing i with
  | nil => simp [idxWhere]
  | cons x r ih =>
      by_cases hx : x = v <;>
        simp [idxWhere, hx, show i + j + 1 = (i + 1) + j by omega, ih (i + 1)]

theorem npWhere_cons (v : ℤ) (x : ℤ) (xs : List ℤ) :
    npWhere v (x :: xs) = (if x = v then [0] else []) ++ (npWhere v xs).map (· + 1) := by
  have h : idxWhere v 1 xs = (idxWhere v 0 xs).map (· + 1) := by
    simpa using idxWhere_shift v xs 0 1
  by_cases hx : x = v <;> simp [npWhere, idxWhere, hx, h]

theorem startsFrom_shift (l : List Bool) (p : Bool) (i j : ℕ) :
    startsFrom p (i + j) l = (startsFrom p i l).map (· + j) := by
  induction l generalizing p i with
  | nil => simp [startsFrom]
  | cons c r ih =>
      cases c <;> cases p <;>
        simp [startsFrom, show i + j + 1 = (i + 1) + j by omega, ih _ (i + 1)]

theorem endsFromNoClose_shift (l : List Bool) (p : Bool) (i j : ℕ) :
    endsFromNoClose p (i + j) l = (endsFromNoClose p i l).map (· + j) := by
  induction l generalizing p i with
  | nil => simp [endsFromNoClose]
  | cons c r ih =>
      cases c <;> cases p <;>
        simp [endsFromNoClose, show i + j + 1 = (i + 1) + j by omega, ih _ (i + 1)]

theorem maskChanges_cons₂ (a c : Bool) (r : List Bool) :
    maskChanges (a :: c :: r) = (boolInt c - boolInt a) :: maskChanges (c :: r) := by
  simp [maskChanges, npDiff]

theorem npWhere_starts (l : List Bool) (a : Bool) :
    (npWhere 1 (maskChanges (a :: l))).map (· + 1) = startsFrom a 1 l := by
  induction l generalizing a with
  | nil => simp [maskChanges, npDiff, npWhere, idxWhere, startsFrom]
  | cons c r ih =>
      rw [maskChanges_cons₂, npWhere_cons]
      have h2 : startsFrom c 2 r = (startsFrom c 1 r).map (· + 1) := by
        simpa using startsFrom_shift r c 1 1
      cases a <;> cases c <;>
        simp [boolInt, startsFrom, h2, ← ih, List.map_map, Function.comp]

theorem npWhere_ends (l : List Bool) (a : Bool) :
    (npWhere (-1) (maskChanges (a :: l))).map (· + 1) = endsFromNoClose a 1 l := by
  induction l generalizing a with
  | nil => simp [maskChanges, npDiff, npWhere, idxWhere, endsFromNoClose]
  | cons c r ih =>
      rw [maskChanges_cons₂, npWhere_cons]
      have h2 : endsFromNoClose c 2 r = (endsFromNoClose c 1 r).map (· + 1) := by
        simpa using endsFromNoClose_shift r c 1 1
      cases a <;> cases c <;>
        simp [boolInt, endsFromNoClose, h2, ← ih, List.map_map, Function.comp]

theorem getLast?_getD_cons {α : Type} (x b : α) (r : List α) :
    (x :: r).getLast?.getD b = r.getLast?.getD x := by
  induction r generalizing x b with
  | nil => rfl
  | cons y s ih => rw [List.getLast?_cons_cons, ih y b, ih y x]

theorem endsFrom_split (l : List Bool) (a : Bool) (i : ℕ) :
    endsFrom a i l =
      endsFromNoClose a i l ++ (if l.getLastD a then [i + l.length] else []) := by
  induction l generalizing a i with
  | nil => cases a <;> simp [endsFrom, endsFromNoClose]
  | cons c r ih =>
      cases a <;> cases c <;>
        simp [endsFrom, endsFromNoClose, ih _ (i + 1), List.getLastD_eq_getLast?,
          getLast?_getD_cons, show i + 1 + r.length = i + (r.length + 1) by omega]

theorem runsFrom_map_fst (l : List Bool) (o : Option ℕ) (i : ℕ) :
    (runsFrom o i l).map Prod.fst =
      o.elim (startsFrom false i l) (fun s => s :: startsFrom true i l) := by
  induction l generalizing o i with
  | nil => cases o <;> simp [runsFrom, startsFrom]
  | cons c r ih =>
      cases o <;> cases c <;> simp [runsFrom, startsFrom, ih]

theorem runsFrom_map_snd (l : List Bool) (o : Option ℕ) (i : ℕ) :
    (runsFrom o i l).map Prod.snd = endsFrom o.isSome i l := by
  induction l generalizing o i with
  | nil => cases o <;> simp [runsFrom, endsFrom]
  | cons c r ih =>
      cases o <;> cases c <;> simp [runsFrom, endsFrom, ih]

theorem zip_fst_snd {α β : Type} (l : List (α × β)) :
    (l.map Prod.fst).zip (l.map Prod.snd) = l := by
  induction l with
  | nil => rfl
  | cons p r ih => simp [ih]

/-- Bridge: on a non-empty mask, the numpy `diff`/`where`/`zip` pipeline of
`intervals_from_mask` computes exactly the maximal runs of `true`. -/
theorem intervals_from_mask_eq_runs (b : Bool) (rest : List Bool) :
    intervals_from_mask (b :: rest) = some (runsFrom none 0 (b :: rest)) := by
  have hfst : (runsFrom none 0 (b :: rest)).map Prod.fst =
      (if b then 0 :: startsFrom b 1 rest else startsFrom b 1 rest) := by
    rw [runsFrom_map_fst]
    cases b <;> simp [startsFrom]
  have hsnd : (runsFrom none 0 (b :: rest)).map Prod.snd =
      (if rest.getLastD b then endsFromNoClose b 1 rest ++ [rest.length + 1]
       else endsFromNoClose b 1 rest) := by
    rw [runsFrom_map_snd]
    show endsFrom false 0 (b :: rest) = _
    have h0 : endsFrom false 0 (b :: rest) = endsFrom b 1 rest := by
      cases b <;> simp [endsFrom]
    rw [h0, endsFrom_split]
    cases hb : rest.getLastD b <;> simp [hb, Nat.add_comm 1 rest.length]
  have hzip := zip_fst_snd (runsFrom none 0 (b :: rest))
  rw [hfst, hsnd] at hzip
  simp only [intervals_from_mask, npWhere_starts, npWhere_ends]
  rw [← hzip]

/-! ### Structure of the extracted runs -/

theorem runsFrom_some_cons_false (s i : ℕ) (r : List Bool) :
    runsFrom (some s) i (false :: r) = (s, i) :: runsFrom none (i + 1) r := by
  simp [runsFrom]

theorem runsFrom_fst (l : List Bool) (o : Option ℕ) (i : ℕ) :
    ∀ p ∈ runsFrom o i l, (∃ s, o = some s ∧ p.1 = s) ∨ i ≤ p.1 := by
  induction l generalizing o i with
  | nil =>
      cases o with
      | none => simp [runsFrom]
      | some s => simp [runsFrom]
  | cons c r ih =>
      cases o with
      | none =>
          cases c with
          | true =>
              intro p hp
              rcases ih (some i) (i + 1) p (by simpa [runsFrom] using hp) with ⟨s, hs, h1⟩ | h
              · exact Or.inr (by simp_all)
              · omega
          | false =>
              intro p hp
              rcases ih none (i + 1) p (by simpa [runsFrom] using hp) with ⟨s, hs, h1⟩ | h
              · simp_all
              · omega
      | some s =>
          cases c with
          | true =>
              intro p hp
              rcases ih (some s) (i + 1) p (by simpa [runsFrom] using hp) with h | h
              · exact Or.inl h
              · omega
          | false =>
              intro p hp
              rw [runsFrom_some_cons_false] at hp
              rcases List.mem_cons.mp hp with h | h
              · exact Or.inl ⟨s, rfl, by simp [h]⟩
              · rcases ih none (i + 1) p h with h1 | h1
                · simp_all
                · omega

theorem runsFrom_snd_facts (l : List Bool) (o : Option ℕ) (i : ℕ)
    (ho : ∀ s, o = some s → s < i) :
    ∀ p ∈ runsFrom o i l,
      i ≤ p.2 ∧ p.1 < p.2 ∧ p.2 ≤ i + l.length ∧
        (p.2 < i + l.length → l.getD (p.2 - i) false = false) := by
  induction l generalizing o i with
  | nil =>
      cases o with
      | none => simp [runsFrom]
      | some s =>
          intro p hp
          simp only [runsFrom, List.mem_singleton] at hp
          subst hp
          refine ⟨le_refl i, ho s rfl, by simp, ?_⟩
          intro h
          simp at h
  | cons c r ih =>
      have hgd : ∀ (x : Bool) (rr : List Bool) (n : ℕ), 0 < n →
          (x :: rr).getD n false = rr.getD (n - 1) false := by
        intro x rr n hn
        cases n with
        | zero => omega
        | succ m => simp
      cases o with
      | none =>
          cases c with
          | true =>
              intro p hp
              have hp' : p ∈ runsFrom (some i) (i + 1) r := by simpa [runsFrom] using hp
              obtain ⟨h1, h2, h3, h4⟩ := ih (some i) (i + 1) (by intro s hs; cases hs; omega) p hp'
              have hp1 : i ≤ p.1 := by
                rcases runsFrom_fst r (some i) (i + 1) p hp' with ⟨s, hs, h⟩ | h
                · cases hs; omega
                · omega
              refine ⟨by omega, h2, by simp; omega, ?_⟩
              intro h5
              rw [hgd true r (p.2 - i) (by omega)]
              have := h4 (by simp at h5 ⊢; omega)
              have heq : p.2 - i - 1 = p.2 - (i + 1) := by omega
              rw [heq]
              exact this
          | false =>
              intro p hp
              have hp' : p ∈ runsFrom none (i + 1) r := by simpa [runsFrom] using hp
              obtain ⟨h1, h2, h3, h4⟩ := ih none (i + 1) (by simp) p hp'
              refine ⟨by omega, h2, by simp; omega, ?_⟩
              intro h5
              rw [hgd false r (p.2 - i) (by omega)]
              have := h4 (by simp at h5 ⊢; omega)
              have heq : p.2 - i - 1 = p.2 - (i + 1) := by omega
              rw [heq]
              exact this
      | some s =>
          cases c with
          | true =>
              intro p hp
              have hp' : p ∈ runsFrom (some s) (i + 1) r := by simpa [runsFrom] using hp
              obtain ⟨h1, h2, h3, h4⟩ := ih (some s) (i + 1) (by intro t ht; cases ht; exact lt_trans (ho s rfl) (by omega)) p hp'
              refine ⟨by omega, h2, by simp; omega, ?_⟩
              intro h5
              rw [hgd true r (p.2 - i) (by omega)]
              have := h4 (by simp at h5 ⊢; omega)
              have heq : p.2 - i - 1 = p.2 - (i + 1) := by omega
              rw [heq]
              exact this
          | false =>
              intro p hp
              rw [runsFrom_some_cons_false] at hp
              rcases List.mem_cons.mp hp with h | h
              · subst h
                refine ⟨le_refl i, ho s rfl, by simp, ?_⟩
                intro _
                simp
              · obtain ⟨h1, h2, h3, h4⟩ := ih none (i + 1) (by simp) p h
                refine ⟨by omega, h2, by simp; omega, ?_⟩
                intro h5
                rw [hgd false r (p.2 - i) (by omega)]
                have := h4 (by simp at h5 ⊢; omega)
                have heq : p.2 - i - 1 = p.2 - (i + 1) := by omega
                rw [heq]
                exact this

theorem runsFrom_pairwise (l : List Bool) (o : Option ℕ) (i : ℕ)
    (ho : ∀ s, o = some s → s < i) :
    List.Pairwise (fun p q : ℕ × ℕ => p.2 < q.1) (runsFrom o i l) := by
  induction l generalizing o i with
  | nil =>
      cases o with
      | none => simp [runsFrom]
      | some s => simp [runsFrom]
  | cons c r ih =>
      cases o with
      | none =>
          cases c with
          | true =>
              simpa [runsFrom] using ih (some i) (i + 1) (by intro s hs; cases hs; omega)
          | false =>
              simpa [runsFrom] using ih none (i + 1) (by simp)
      | some s =>
          cases c with
          | true =>
              simpa [runsFrom] using
                ih (some s) (i + 1) (by intro t ht; cases ht; exact lt_trans (ho s rfl) (by omega))
          | false =>
              rw [runsFrom_some_cons_false]
              refine List.pairwise_cons.mpr ⟨?_, ih none (i + 1) (by simp)⟩
              intro q hq
              rcases runsFrom_fst r none (i + 1) q hq with ⟨t, ht, _⟩ | h
              · cases ht
              · exact lt_of_lt_of_le (by omega) h

theorem runsFrom_cover (l : List Bool) (o : Option ℕ) (i : ℕ)
    (ho : ∀ s, o = some s → s < i) (j : ℕ) :
    (∃ p ∈ runsFrom o i l, p.1 ≤ j ∧ j < p.2) ↔
      ((∃ s, o = some s ∧ s ≤ j ∧ j < i) ∨ (i ≤ j ∧ l.getD (j - i) false = true)) := by
  induction l generalizing o i with
  | nil =>
      cases o with
      | none => simp [runsFrom]
      | some s => simp [runsFrom]
  | cons c r ih =>
      have hcons : ∀ (x : Bool) (rr : List Bool) (n : ℕ), i < n →
          (x :: rr).getD (n - i) false = rr.getD (n - (i + 1)) false := by
        intro x rr n hn
        have h1 : n - i = (n - (i + 1)) + 1 := by omega
        rw [h1]
        simp
      cases o with
      | none =>
          cases c with
          | true =>
              have := ih (some i) (i + 1) (by intro s hs; cases hs; omega)
              rw [show runsFrom none i (true :: r) = runsFrom (some i) (i + 1) r from by
                simp [runsFrom]]
              rw [this]
              constructor
              · rintro (⟨s, hs, h1, h2⟩ | ⟨h1, h2⟩)
                · cases hs
                  refine Or.inr ⟨by omega, ?_⟩
                  have hj : j = i := by omega
                  subst hj
                  simp
                · refine Or.inr ⟨by omega, ?_⟩
                  rw [hcons true r j (by omega)]
                  exact h2
              · rintro (⟨s, hs, _, _⟩ | ⟨h1, h2⟩)
                · cases hs
                · rcases Nat.eq_or_lt_of_le h1 with hj | hj
                  · exact Or.inl ⟨i, rfl, by omega⟩
                  · refine Or.inr ⟨by omega, ?_⟩
                    rw [hcons true r j (by omega)] at h2
                    exact h2
          | false =>
              have := ih none (i + 1) (by simp)
              rw [show runsFrom none i (false :: r) = runsFrom none (i + 1) r from by
                simp [runsFrom]]
              rw [this]
              constructor
              · rintro (⟨s, hs, _, _⟩ | ⟨h1, h2⟩)
                · cases hs
                · refine Or.inr ⟨by omega, ?_⟩
                  rw [hcons false r j (by omega)]
                  exact h2
              · rintro (⟨s, hs, _, _⟩ | ⟨h1, h2⟩)
                · cases hs
                · rcases Nat.eq_or_lt_of_le h1 with hj | hj
                  · subst hj
                    simp at h2
                  · refine Or.inr ⟨by omega, ?_⟩
                    rw [hcons false r j (by omega)] at h2
                    exact h2
      | some s =>
          have hsi := ho s rfl
          cases c with
          | true =>
              have := ih (some s) (i + 1) (by intro t ht; cases ht; omega)
              rw [show runsFrom (some s) i (true :: r) = runsFrom (some s) (i + 1) r from by
                simp [runsFrom]]
              rw [this]
              constructor
              · rintro (⟨t, ht, h1, h2⟩ | ⟨h1, h2⟩)
                · cases ht
                  rcases Nat.lt_or_ge j i with hj | hj
                  · exact Or.inl ⟨s, rfl, h1, hj⟩
                  · refine Or.inr ⟨hj, ?_⟩
                    have hj' : j = i := by omega
                    subst hj'
                    simp
                · refine Or.inr ⟨by omega, ?_⟩
                  rw [hcons true r j (by omega)]
                  exact h2
              · rintro (⟨t, ht, h1, h2⟩ | ⟨h1, h2⟩)
                · cases ht
                  exact Or.inl ⟨s, rfl, h1, by omega⟩
                · rcases Nat.eq_or_lt_of_le h1 with hj | hj
                  · exact Or.inl ⟨s, rfl, by omega⟩
                  · refine Or.inr ⟨by omega, ?_⟩
                    rw [hcons true r j (by omega)] at h2
                    exact h2
          | false =>
              have := ih none (i + 1) (by simp)
              rw [runsFrom_some_cons_false]
              constructor
              · intro h
                rcases h with ⟨p, hp, h1, h2⟩
                rcases List.mem_cons.mp hp with hps | hps
                · subst hps
                  exact Or.inl ⟨s, rfl, h1, h2⟩
                · rcases (ih none (i + 1) (by simp) |>.mp ⟨p, hps, h1, h2⟩) with ⟨t, ht, _⟩ | ⟨h3, h4⟩
                  · cases ht
                  · refine Or.inr ⟨by omega, ?_⟩
                    rw [hcons false r j (by omega)]
                    exact h4
              · rintro (⟨t, ht, h1, h2⟩ | ⟨h1, h2⟩)
                · cases ht
                  exact ⟨(s, i), List.mem_cons_self _ _, h1, h2⟩
                · rcases Nat.eq_or_lt_of_le h1 with hj | hj
                  · subst hj
                    simp at h2
                  · have h4 : r.getD (j - (i + 1)) false = true := by
                      rw [← hcons false r j (by omega)]
                      exact h2
                    rcases (ih none (i + 1) (by simp)).mpr (Or.inr ⟨by omega, h4⟩) with ⟨p, hp, hc⟩
                    exact ⟨p, List.mem_cons_of_mem _ hp, hc⟩

theorem runsFrom_replicate_false (n i : ℕ) :
    runsFrom none i (List.replicate n false) = [] := by
  induction n generalizing i with
  | zero => simp [runsFrom]
  | succ m ih => simpa [List.replicate_succ, runsFrom] using ih (i + 1)

theorem runsFrom_replicate_true (n s i : ℕ) :
    runsFrom (some s) i (List.replicate n true) = [(s, i + n)] := by
  induction n generalizing i with
  | zero => simp [runsFrom]
  | succ m ih =>
      rw [List.replicate_succ]
      rw [show runsFrom (some s) i (true :: List.replicate m true) =
        runsFrom (some s) (i + 1) (List.replicate m true) from by simp [runsFrom]]
      rw [ih (i + 1), show i + 1 + m = i + (m + 1) from by omega]

theorem pairwise_fst_of (L : List (ℕ × ℕ)) (hall : ∀ p ∈ L, p.1 < p.2)
    (h : List.Pairwise (fun p q : ℕ × ℕ => p.2 < q.1) L) :
    List.Pairwise (fun p q : ℕ × ℕ => p.1 < q.1) L := by
  induction L with
  | nil => simp
  | cons a l ih =>
      rcases List.pairwise_cons.mp h with ⟨h1, h2⟩
      refine List.pairwise_cons.mpr
        ⟨?_, ih (fun p hp => hall p (List.mem_cons_of_mem _ hp)) h2⟩
      intro q hq
      exact lt_trans (hall a (List.mem_cons_self _ _)) (h1 q hq)

theorem mask_reconstruct (m : List Bool) :
    maskOfIntervals m.length (runsFrom none 0 m) = m := by
  have hlen : (maskOfIntervals m.length (runsFrom none 0 m)).length = m.length := by
    simp [maskOfIntervals]
  refine List.ext_getElem hlen ?_
  intro j hj1 hj2
  have hcov := runsFrom_cover m none 0 (by simp) j
  simp only [show (∃ s, (none : Option ℕ) = some s ∧ s ≤ j ∧ j < 0) = False from by simp,
    false_or] at hcov
  have hget : (maskOfIntervals m.length (runsFrom none 0 m))[j] =
      (runsFrom none 0 m).any (fun p => decide (p.1 ≤ j) && decide (j < p.2)) := by
    simp [maskOfIntervals]
  rw [hget]
  have hiff : ((runsFrom none 0 m).any (fun p => decide (p.1 ≤ j) && decide (j < p.2)) = true)
      ↔ (m[j] = true) := by
    rw [List.any_eq_true]
    constructor
    · rintro ⟨p, hp, hb⟩
      simp only [Bool.and_eq_true, decide_eq_true_eq] at hb
      have := hcov.mp ⟨p, hp, hb.1, hb.2⟩
      rw [← List.getD_eq_getElem m false hj2]
      exact this.2
    · intro hjt
      have := hcov.mpr ⟨by omega, by rw [Nat.sub_zero, List.getD_eq_getElem m false hj2]; exact hjt⟩
      rcases this with ⟨p, hp, h1, h2⟩
      exact ⟨p, hp, by simp [h1, h2]⟩
  cases hb : m[j] with
  | false =>
      rw [hb] at hiff
      cases hc : (runsFrom none 0 m).any (fun p => decide (p.1 ≤ j) && decide (j < p.2)) with
      | false => rfl
      | true => exact absurd (hiff.mp hc) (by simp)
  | true =>
      rw [hb] at hiff
      exact hiff.mpr rfl

/-- C2: for every non-empty boolean mask (and any same-length strictly
increasing timestamp sequence), `intervals_from_mask` succeeds and returns
half-open index intervals whose union of covered indices is exactly the set
of `true` positions of the mask; the list is sorted by start, no two
intervals overlap or touch (each stop is strictly before the next start),
and re-extracting from the mask rebuilt from the returned intervals yields
the same interval list. -/
theorem c2_intervals_partition (m : List Bool) (ts : List ℕ) (hm : m ≠ [])
    (hlen : ts.length = m.length) (hmono : List.Chain' (· < ·) ts) :
    ∃ L, intervals_from_mask m = some L ∧
      (∀ j, (∃ p ∈ L, p.1 ≤ j ∧ j < p.2) ↔ m.getD j false = true) ∧
      (∀ p ∈ L, p.1 < p.2) ∧
      List.Pairwise (fun p q : ℕ × ℕ => p.1 < q.1) L ∧
      List.Pairwise (fun p q : ℕ × ℕ => p.2 < q.1) L ∧
      intervals_from_mask (maskOfIntervals m.length L) = some L := by
  cases m with
  | nil => exact absurd rfl hm
  | cons b rest =>
      refine ⟨runsFrom none 0 (b :: rest), intervals_from_mask_eq_runs b rest, ?_, ?_, ?_, ?_, ?_⟩
      · intro j
        simpa using runsFrom_cover (b :: rest) none 0 (by simp) j
      · intro p hp
        exact (runsFrom_snd_facts (b :: rest) none 0 (by simp) p hp).2.1
      · exact pairwise_fst_of _
          (fun p hp => (runsFrom_snd_facts (b :: rest) none 0 (by simp) p hp).2.1)
          (runsFrom_pairwise (b :: rest) none 0 (by simp))
      · exact runsFrom_pairwise (b :: rest) none 0 (by simp)
      · rw [mask_reconstruct (b :: rest)]
        exact intervals_from_mask_eq_runs b rest

/-- Witness for C2 at the concrete mask `[true, false, true]` with
timestamps `[3, 5, 9]`. -/
theorem c2_intervals_partition_witness :
    ∃ L, intervals_from_mask [true, false, true] = some L ∧
      (∀ j, (∃ p ∈ L, p.1 ≤ j ∧ j < p.2) ↔ [true, false, true].getD j false = true) ∧
      (∀ p ∈ L, p.1 < p.2) ∧
      List.Pairwise (fun p q : ℕ × ℕ => p.1 < q.1) L ∧
      List.Pairwise (fun p q : ℕ × ℕ => p.2 < q.1) L ∧
      intervals_from_mask (maskOfIntervals [true, false, true].length L) = some L :=
  c2_intervals_partition [true, false, true] [3, 5, 9] (by decide) (by decide) (by norm_num [List.chain'_cons])

/-- C3 counterexample: on the all-`true` mask `[true, true]` with timestamps
`[10, 20]`, the claim says the extractor returns one closed timestamp
interval spanning the first to the last timestamp, `(10, 20)`, and never an
index-past-the-end value; `intervals_from_mask` actually returns the
half-open index pair `(0, 2)` whose stop equals `len(mask)`. -/
theorem c3_counterexample :
    intervals_from_mask [true, true] = some [(0, 2)] ∧
    specClosedIntervals [true, true] [10, 20] = [(10, 20)] ∧
    some [((0 : ℕ), (2 : ℕ))] ≠ some [((10 : ℕ), (20 : ℕ))] ∧
    (2 : ℕ) = [true, true].length := by
  refine ⟨by decide, by decide, by decide, by decide⟩

/-- C3 amended: `intervals_from_mask` returns half-open index pairs, not
closed timestamp pairs: each returned `(start, stop)` has `stop` equal to
the index of the first `false` after the run (one past the index before that
`false`), and a run reaching the final index is closed at `stop = len(mask)`
(an index-past-the-end value); an all-`false` mask yields `[]` and an
all-`true` mask yields exactly `[(0, len(mask))]`. -/
theorem c3_amended (m : List Bool) (hm : m ≠ []) :
    ∃ L, intervals_from_mask m = some L ∧
      (∀ p ∈ L, p.1 < p.2 ∧ p.2 ≤ m.length ∧ m.getD (p.2 - 1) false = true ∧
        (p.2 = m.length ∨ m.getD p.2 false = false)) ∧
      ((∀ x ∈ m, x = false) → L = []) ∧
      ((∀ x ∈ m, x = true) → L = [(0, m.length)]) := by
  cases m with
  | nil => exact absurd rfl hm
  | cons b rest =>
      refine ⟨runsFrom none 0 (b :: rest), intervals_from_mask_eq_runs b rest, ?_, ?_, ?_⟩
      · intro p hp
        obtain ⟨h1, h2, h3, h4⟩ := runsFrom_snd_facts (b :: rest) none 0 (by simp) p hp
        have hcov := runsFrom_cover (b :: rest) none 0 (by simp) (p.2 - 1)
        have hstop : (b :: rest).getD (p.2 - 1) false = true := by
          have hc := hcov.mp ⟨p, hp, by omega, by omega⟩
          rcases hc with ⟨s, hs, _⟩ | hc
          · cases hs
          · simpa using hc.2
        refine ⟨h2, by simpa using h3, hstop, ?_⟩
        rcases Nat.eq_or_lt_of_le h3 with he | hl
        · exact Or.inl (by simpa using he)
        · exact Or.inr (by simpa using h4 (by simpa using hl))
      · intro hall
        have hrep : b :: rest = List.replicate (b :: rest).length false :=
          List.eq_replicate_iff.mpr ⟨rfl, hall⟩
        rw [hrep, runsFrom_replicate_false]
      · intro hall
        have hb : b = true := hall b (List.mem_cons_self _ _)
        have hrep : rest = List.replicate rest.length true :=
          List.eq_replicate_iff.mpr ⟨rfl, fun x hx => hall x (List.mem_cons_of_mem _ hx)⟩
        subst hb
        rw [show runsFrom none 0 (true :: rest) = runsFrom (some 0) 1 rest from by
          simp [runsFrom]]
        rw [hrep, runsFrom_replicate_true]
        simp [Nat.add_comm]

/-- Witness for C3 (amended) at the concrete mask `[true, false]`. -/
theorem c3_amended_witness :
    ∃ L, intervals_from_mask [true, false] = some L ∧
      (∀ p ∈ L, p.1 < p.2 ∧ p.2 ≤ [true, false].length ∧
        [true, false].getD (p.2 - 1) false = true ∧
        (p.2 = [true, false].length ∨ [true, false].getD p.2 false = false)) ∧
      ((∀ x ∈ [true, false], x = false) → L = []) ∧
      ((∀ x ∈ [true, false], x = true) → L = [(0, [true, false].length)]) :=
  c3_amended [true, false] (by decide)

/-- C8 counterexample: the claim says a call whose mask length differs from
the timestamp sequence length fails with a `ShapeMismatch` error and never
returns an interval list; `intervals_from_mask` takes no timestamp sequence
at all, performs no shape check, and here returns an interval list although
the mask length 1 differs from the length 0 of an accompanying timestamp
sequence. -/
theorem c8_counterexample :
    [true].length ≠ ([] : List ℕ).length ∧
    intervals_from_mask [true] = some [(0, 1)] := by
  refine ⟨by decide, by decide⟩

/-- C8 amended: `intervals_from_mask` receives only the mask, so no
mask/timestamp length disagreement can be detected: there is no shape check
and no `ShapeMismatch` error, and the call returns an interval list for
every non-empty mask. -/
theorem c8_amended (m : List Bool) (hm : m ≠ []) :
    (intervals_from_mask m).isSome = true := by
  cases m with
  | nil => exact absurd rfl hm
  | cons b rest => rw [intervals_from_mask_eq_runs b rest]; rfl

/-- Witness for C8 (amended) at the concrete mask `[false, true]`. -/
theorem c8_amended_witness : (intervals_from_mask [false, true]).isSome = true :=
  c8_amended [false, true] (by decide)

/-- C10: `intervals_from_mask` is not total on the empty mask: it fails
(reading `mask[0]` raises `IndexError`, modelled as `none`) exactly on the
length-0 mask, so the all-`false` guarantee applies only to masks of
length ≥ 1. -/
theorem c10_empty_mask_fails (m : List Bool) :
    intervals_from_mask m = none ↔ m = [] := by
  cases m with
  | nil => simp [intervals_from_mask]
  | cons b rest => rw [intervals_from_mask_eq_runs b rest]; simp

/-! ### C4: `find_events` warm-up positions -/

theorem mapRange_getD (n : ℕ) (f : ℕ → Bool) (i : ℕ) :
    ((List.range n).map f).getD i false = if i < n then f i else false := by
  rw [List.getD_eq_getElem?_getD, List.getElem?_map]
  by_cases h : i < n
  · rw [List.getElem?_range h]
    simp [h]
  · rw [List.getElem?_eq_none (by simpa using h)]
    simp [h]

theorem closedRunsFrom_some_cons_false (s i : ℕ) (r : List Bool) :
    closedRunsFrom (some s) i (false :: r) = (s, i - 1) :: closedRunsFrom none (i + 1) r := by
  simp [closedRunsFrom]

theorem closedRunsFrom_fst (l : List Bool) (o : Option ℕ) (i : ℕ) :
    ∀ p ∈ closedRunsFrom o i l,
      (∃ s, o = some s ∧ p.1 = s) ∨ (i ≤ p.1 ∧ l.getD (p.1 - i) false = true) := by
  induction l generalizing o i with
  | nil =>
      cases o with
      | none => simp [closedRunsFrom]
      | some s => simp [closedRunsFrom]
  | cons c r ih =>
      have hcons : ∀ (x : Bool) (rr : List Bool) (n : ℕ), i < n →
          (x :: rr).getD (n - i) false = rr.getD (n - (i + 1)) false := by
        intro x rr n hn
        rw [show n - i = (n - (i + 1)) + 1 from by omega]
        simp
      cases o with
      | none =>
          cases c with
          | true =>
              intro p hp
              have hp' : p ∈ closedRunsFrom (some i) (i + 1) r := by
                simpa [closedRunsFrom] using hp
              rcases ih (some i) (i + 1) p hp' with ⟨s, hs, h1⟩ | ⟨h1, h2⟩
              · cases hs
                refine Or.inr ⟨by omega, ?_⟩
                rw [h1]
                simp
              · refine Or.inr ⟨by omega, ?_⟩
                rw [hcons true r p.1 (by omega)]
                exact h2
          | false =>
              intro p hp
              have hp' : p ∈ closedRunsFrom none (i + 1) r := by
                simpa [closedRunsFrom] using hp
              rcases ih none (i + 1) p hp' with ⟨s, hs, _⟩ | ⟨h1, h2⟩
              · cases hs
              · refine Or.inr ⟨by omega, ?_⟩
                rw [hcons false r p.1 (by omega)]
                exact h2
      | some s =>
          cases c with
          | true =>
              intro p hp
              have hp' : p ∈ closedRunsFrom (some s) (i + 1) r := by
                simpa [closedRunsFrom] using hp
              rcases ih (some s) (i + 1) p hp' with h | ⟨h1, h2⟩
              · exact Or.inl h
              · refine Or.inr ⟨by omega, ?_⟩
                rw [hcons true r p.1 (by omega)]
                exact h2
          | false =>
              intro p hp
              rw [closedRunsFrom_some_cons_false] at hp
              rcases List.mem_cons.mp hp with h | h
              · exact Or.inl ⟨s, rfl, by rw [h]⟩
              · rcases ih none (i + 1) p h with ⟨t, ht, _⟩ | ⟨h1, h2⟩
                · cases ht
                · refine Or.inr ⟨by omega, ?_⟩
                  rw [hcons false r p.1 (by omega)]
                  exact h2

theorem closedRunsFrom_le (l : List Bool) (o : Option ℕ) (i : ℕ)
    (ho : ∀ s, o = some s → s < i) :
    ∀ p ∈ closedRunsFrom o i l, p.1 ≤ p.2 := by
  induction l generalizing o i with
  | nil =>
      cases o with
      | none => simp [closedRunsFrom]
      | some s =>
          intro p hp
          simp only [closedRunsFrom, List.mem_singleton] at hp
          subst hp
          have := ho s rfl
          simp
          omega
  | cons c r ih =>
      cases o with
      | none =>
          cases c with
          | true =>
              intro p hp
              exact ih (some i) (i + 1) (by intro s hs; cases hs; omega) p
                (by simpa [closedRunsFrom] using hp)
          | false =>
              intro p hp
              exact ih none (i + 1) (by simp) p (by simpa [closedRunsFrom] using hp)
      | some s =>
          cases c with
          | true =>
              intro p hp
              exact ih (some s) (i + 1)
                (by intro t ht; cases ht; exact lt_trans (ho s rfl) (by omega)) p
                (by simpa [closedRunsFrom] using hp)
          | false =>
              intro p hp
              rw [closedRunsFrom_some_cons_false] at hp
              rcases List.mem_cons.mp hp with h | h
              · subst h
                have := ho s rfl
                simp
                omega
              · exact ih none (i + 1) (by simp) p h

theorem isEventB_warmup (v : List ℝ) (w : ℕ) (cv : ℝ) (i : ℕ) (h : i + 1 < w) :
    isEventB v w cv i = false := by
  have hm : rollingMean v w i = none := by
    unfold rollingMean
    rw [if_neg (by omega)]
  unfold isEventB
  rw [hm]

/-- C4: for every series and window ≥ 1, `find_events` never includes any of
the first `window - 1` positions in a returned event interval: every returned
closed index interval has a start (hence all covered positions) at least
`window - 1`, and the `is_event` comparison at the warm-up positions, made
against NaN rolling statistics, evaluates to "not an event" rather than
raising. -/
theorem c4_find_events_warmup (v : List ℝ) (w : ℕ) (cv : ℝ) (hw : 1 ≤ w) :
    ((find_events v w cv).all
      (fun p => decide (w - 1 ≤ p.1) && decide (p.1 ≤ p.2)) = true) ∧
    ((List.range (w - 1)).all (fun i => !(isEventB v w cv i)) = true) := by
  constructor
  · rw [List.all_eq_true]
    intro p hp
    have hle : p.1 ≤ p.2 := closedRunsFrom_le _ none 0 (by simp) p hp
    have hfst := closedRunsFrom_fst _ none 0 p hp
    rcases hfst with ⟨s, hs, _⟩ | ⟨_, h2⟩
    · cases hs
    · rw [Nat.sub_zero, mapRange_getD] at h2
      by_cases hlt : p.1 < v.length
      · rw [if_pos hlt] at h2
        have : ¬(p.1 + 1 < w) := by
          intro hcon
          rw [isEventB_warmup v w cv p.1 hcon] at h2
          exact Bool.false_ne_true h2
        simp only [Bool.and_eq_true, decide_eq_true_eq]
        omega
      · rw [if_neg hlt] at h2
        exact absurd h2 Bool.false_ne_true
  · rw [List.all_eq_true]
    intro i hi
    rw [List.mem_range] at hi
    rw [isEventB_warmup v w cv i (by omega)]
    rfl

/-- Witness for C4 at the concrete series `[5, 50, 5]`, window 2. -/
theorem c4_find_events_warmup_witness :
    ((find_events [(5 : ℝ), 50, 5] 2 2).all
      (fun p => decide (2 - 1 ≤ p.1) && decide (p.1 ≤ p.2)) = true) ∧
    ((List.range (2 - 1)).all (fun i => !(isEventB [(5 : ℝ), 50, 5] 2 2 i)) = true) :=
  c4_find_events_warmup [(5 : ℝ), 50, 5] 2 2 (by decide)

/-! ### C9: `noise_mask` boundary acceptance -/

theorem zScoreF_edge (v : List ℝ) (rw off i : ℕ) (h : i < off ∨ v.length - off ≤ i) :
    zScoreF v rw off i = some 0 := by
  unfold zScoreF
  rw [if_neg (by omega)]

theorem zScoreB_edge (v : List ℝ) (rw off i : ℕ) (h : i < off ∨ v.length - off ≤ i) :
    zScoreB v rw off i = some 0 := by
  unfold zScoreB
  rw [if_neg (by omega)]

theorem zAccept_zero : zAccept (some 0) = true := by
  unfold zAccept
  rw [decide_eq_true_eq]
  rw [abs_zero]
  norm_num

theorem offsetMask_edge (v : List ℝ) (rw off i : ℕ) (hi : i < v.length)
    (h : i < off ∨ v.length - off ≤ i) :
    (offsetMask v rw off).getD i false = true := by
  unfold offsetMask
  rw [mapRange_getD, if_pos hi, zScoreF_edge v rw off i h, zScoreB_edge v rw off i h,
    zAccept_zero]
  rfl

theorem offsetMask_length (v : List ℝ) (rw off : ℕ) :
    (offsetMask v rw off).length = v.length := by
  simp [offsetMask]

theorem noise_foldl_acc (v : List ℝ) (rw : ℕ) (i : ℕ) (hi : i < v.length)
    (offsets : List ℕ) :
    ∀ (mask : List Bool), mask.length = v.length → mask.getD i false = true →
      (∀ o ∈ offsets, i < o ∨ v.length - o ≤ i) →
      (offsets.foldl (fun mask off => mask.zipWith (· && ·) (offsetMask v rw off))
        mask).getD i false = true := by
  induction offsets with
  | nil =>
      intro mask _ hm _
      simpa using hm
  | cons off rest ih =>
      intro mask hlen hm hedge
      rw [List.foldl_cons]
      have hlen2 : (mask.zipWith (· && ·) (offsetMask v rw off)).length = v.length := by
        rw [List.length_zipWith, offsetMask_length, hlen]
        omega
      refine ih _ hlen2 ?_ (fun o ho => hedge o (List.mem_cons_of_mem _ ho))
      have hilt : i < (mask.zipWith (· && ·) (offsetMask v rw off)).length := by omega
      rw [List.getD_eq_getElem _ false hilt, List.getElem_zipWith]
      have hmi : i < mask.length := by omega
      have hoi : i < (offsetMask v rw off).length := by
        rw [offsetMask_length]
        omega
      have h1 : mask[i] = true := by
        rw [← List.getD_eq_getElem mask false hmi]
        exact hm
      have h2 : (offsetMask v rw off)[i] = true := by
        rw [← List.getD_eq_getElem (offsetMask v rw off) false hoi]
        exact offsetMask_edge v rw off i hi (hedge off (List.mem_cons_self _ _))
      rw [h1, h2]
      rfl

/-- C9: every index that lies outside `[offset, n - offset)` for all the
given (positive) offsets is accepted by `noise_mask` — in particular indices
`0` and `n - 1` always are — because the forward/backward z-score arrays are
zero-initialized there and `|0| < 3` counts as accepted. -/
theorem c9_noise_mask_edge (v : List ℝ) (rw : ℕ) (offsets : List ℕ) (i : ℕ)
    (hpos : ∀ o ∈ offsets, 1 ≤ o) (hi : i < v.length)
    (hedge : ∀ o ∈ offsets, i < o ∨ v.length - o ≤ i) :
    (noise_mask v rw offsets).getD i false = true := by
  unfold noise_mask
  refine noise_foldl_acc v rw i hi offsets _ (by simp) ?_ hedge
  rw [List.getD_eq_getElem _ false (by simpa using hi)]
  simp

/-- Witness for C9: the last index of a length-3 series, offset 1, is
accepted. -/
theorem c9_noise_mask_edge_witness :
    (noise_mask [(1 : ℝ), 2, 3] 2 [1]).getD 2 false = true :=
  c9_noise_mask_edge [(1 : ℝ), 2, 3] 2 [1] 2 (by decide) (by simp)
    (by intro o ho; simp at ho; subst ho; right; simp)

/-! ### C5, C6: degenerate-parameter errors -/

/-- C5: `detect_onset` fails with `DegenerateParameters` exactly when the
background mean equals the uncertainty limit `mean + critical_value * sigma`
(for any `sigma > 0`); the check runs before any scan step and the error
arises from no other parameter configuration. -/
theorem c5_degenerate_parameters (v : List ℝ) (mean sigma : ℝ) (w : ℕ) (cv : ℝ)
    (hs : 0 < sigma) :
    detect_onset v mean sigma w cv = .error .degenerateParameters ↔
      mean = mean + cv * sigma := by
  unfold detect_onset
  by_cases h : mean = mean + cv * sigma
  · rw [if_pos h]
    exact iff_of_true rfl h
  · rw [if_neg h]
    simp [h]

/-- Witness for C5: `critical_value = 0` makes the mean equal the
uncertainty limit. -/
theorem c5_degenerate_parameters_witness :
    detect_onset [] 1 1 30 0 = .error .degenerateParameters ↔ (1 : ℝ) = 1 + 0 * 1 :=
  c5_degenerate_parameters [] 1 1 30 0 (by norm_num)

/-- C6 (spec-modelled): `detect_anomalies` with a zero background standard
deviation (Gaussian) or a zero background rate (Poisson) always fails with
`DegenerateBackground` and never produces a mask. -/
theorem c6_degenerate_background (bg sig : List ℝ) (ws : ℕ) (th : ℝ) :
    (listStd bg = 0 →
      detect_anomalies bg sig ws th .gaussian = .error .degenerateBackground) ∧
    (listMean bg = 0 →
      detect_anomalies bg sig ws th .poisson = .error .degenerateBackground) := by
  constructor <;> intro h <;> simp [detect_anomalies, h]

/-- Witness for C6: a constant background sample has zero std, and an
all-zero background sample has zero rate. -/
theorem c6_degenerate_background_witness :
    detect_anomalies [(5 : ℝ), 5] [1] 1 1 .gaussian = .error .degenerateBackground ∧
    detect_anomalies [(0 : ℝ), 0] [1] 1 1 .poisson = .error .degenerateBackground := by
  have hmean : listMean [(5 : ℝ), 5] = 5 := by
    unfold listMean
    norm_num
  have hstd : listStd [(5 : ℝ), 5] = 0 := by
    unfold listStd
    rw [hmean]
    norm_num
  have hrate : listMean [(0 : ℝ), 0] = 0 := by
    unfold listMean
    norm_num
  exact ⟨(c6_degenerate_background [(5 : ℝ), 5] [1] 1 1).1 hstd,
    (c6_degenerate_background [(0 : ℝ), 0] [1] 1 1).2 hrate⟩

/-! ### C7: no onset when the normalized flux stays below round(k) -/

theorem onsetHastiness_ge_one (mean sigma cv : ℝ) : 1 ≤ onsetHastiness mean sigma cv := by
  unfold onsetHastiness
  split <;> norm_num

theorem onsetStep_zero (mean sigma : ℝ) (rk : ℤ) (x : ℝ)
    (h : (x - mean) / sigma < (rk : ℝ)) :
    onsetStep mean sigma rk (0, 0) x = (0, 0) := by
  have hm : max (0 : ℝ) ((x - mean) / sigma - (rk : ℝ) + (0 : ℝ)) = 0 :=
    max_eq_left (by linarith)
  show ((0 : ℝ), max (0 : ℝ) ((x - mean) / sigma - (rk : ℝ) + (0 : ℝ))) = ((0 : ℝ), (0 : ℝ))
  rw [hm]

theorem onsetTraceStep_zero (mean sigma : ℝ) (rk : ℤ) (hastiness : ℝ)
    (hh : 1 ≤ hastiness) (x : ℝ) (h : (x - mean) / sigma < (rk : ℝ)) :
    onsetTraceStep mean sigma rk hastiness ((0, 0), 0) x = ((0, 0), 0) := by
  unfold onsetTraceStep
  rw [onsetStep_zero mean sigma rk x h]
  rw [if_neg (not_lt.mpr (by norm_num; linarith : ((0, 0) : ℝ × ℝ).2 ≤ hastiness))]

theorem onsetLoop_none (mean sigma : ℝ) (rk : ℤ) (hastiness : ℝ) (w : ℕ)
    (hw : 1 ≤ w) (hh : 1 ≤ hastiness) (l : List ℝ) :
    (∀ x ∈ l, (x - mean) / sigma < (rk : ℝ)) →
    ∀ i, onsetLoop mean sigma rk hastiness w ((0, 0), 0) i l = none := by
  induction l with
  | nil => intro _ i; rfl
  | cons x r ih =>
      intro hlow i
      have hstep := onsetTraceStep_zero mean sigma rk hastiness hh x
        (hlow x (List.mem_cons_self _ _))
      simp only [onsetLoop, hstep]
      rw [if_neg (by simpa using by omega : ¬(((0, 0), 0) : (ℝ × ℝ) × ℕ).2 = w)]
      exact ih (fun y hy => hlow y (List.mem_cons_of_mem _ hy)) (i + 1)

theorem cusumStatesAux_all_zero (mean sigma : ℝ) (rk : ℤ) (l : List ℝ) :
    (∀ x ∈ l, (x - mean) / sigma < (rk : ℝ)) →
    ∀ s ∈ cusumStatesAux mean sigma rk (0, 0) l, s = ((0 : ℝ), (0 : ℝ)) := by
  induction l with
  | nil =>
      intro _ s hs
      simpa [cusumStatesAux] using hs
  | cons x r ih =>
      intro hlow s hs
      rw [show cusumStatesAux mean sigma rk (0, 0) (x :: r) =
        (0, 0) :: cusumStatesAux mean sigma rk (onsetStep mean sigma rk (0, 0) x) r
        from rfl] at hs
      rw [onsetStep_zero mean sigma rk x (hlow x (List.mem_cons_self _ _))] at hs
      rcases List.mem_cons.mp hs with h | h
      · exact h
      · exact ih (fun y hy => hlow y (List.mem_cons_of_mem _ hy)) s h

/-- C7: on a series whose normalized values all stay strictly below the
rounded control parameter `round(k)`, `detect_onset` reports no onset: the
cusum statistic is 0 after every scan step (so the consecutive-alert counter
never increments) and the result is `none`, for every series length and
every window ≥ 1. -/
theorem c7_no_onset (v : List ℝ) (mean sigma : ℝ) (w : ℕ) (cv : ℝ)
    (hw : 1 ≤ w) (hne : mean ≠ mean + cv * sigma)
    (hlow : ∀ x ∈ v, (x - mean) / sigma < (pythonRound (onsetK mean sigma cv) : ℝ)) :
    detect_onset v mean sigma w cv = .ok none ∧
    (cusumList v mean sigma (pythonRound (onsetK mean sigma cv))).all
      (fun c => decide (c = 0)) = true := by
  constructor
  · unfold detect_onset
    rw [if_neg hne]
    rw [onsetLoop_none mean sigma (pythonRound (onsetK mean sigma cv))
      (onsetHastiness mean sigma cv) w hw (onsetHastiness_ge_one mean sigma cv)
      (v.drop 1) (fun x hx => hlow x (List.mem_of_mem_drop hx)) 1]
  · rw [List.all_eq_true]
    intro c hc
    unfold cusumList at hc
    rcases List.mem_map.mp hc with ⟨s, hs, hsnd⟩
    have := cusumStatesAux_all_zero mean sigma (pythonRound (onsetK mean sigma cv))
      (v.drop 1) (fun x hx => hlow x (List.mem_of_mem_drop hx)) s hs
    rw [decide_eq_true_eq, ← hsnd, this]

/-! ### Concrete control-parameter computations -/

theorem onsetK_exp : onsetK 0 1 (Real.exp 1 - 1) = Real.exp 1 - 1 := by
  unfold onsetK
  rw [show (0 : ℝ) + (Real.exp 1 - 1) * 1 = Real.exp 1 - 1 from by ring]
  rw [show (1 : ℝ) + (Real.exp 1 - 1) = Real.exp 1 from by ring]
  rw [Real.log_exp]
  rw [show (1 : ℝ) + 0 = 1 from by ring, Real.log_one]
  norm_num

theorem pythonRound_exp : pythonRound (Real.exp 1 - 1) = 2 := by
  have he1 := Real.exp_one_gt_d9
  have he2 := Real.exp_one_lt_d9
  have hfloor : ⌊Real.exp 1 - 1⌋ = 1 := by
    apply Int.floor_eq_iff.mpr
    constructor
    · push_cast
      linarith
    · push_cast
      linarith
  have hfract : Int.fract (Real.exp 1 - 1) ≠ 1 / 2 := by
    have hf : Int.fract (Real.exp 1 - 1) = Real.exp 1 - 1 - ↑⌊Real.exp 1 - 1⌋ := rfl
    rw [hf, hfloor]
    push_cast
    intro hcon
    linarith
  have hround : round (Real.exp 1 - 1) = 2 := by
    rw [round_eq]
    apply Int.floor_eq_iff.mpr
    constructor
    · push_cast
      linarith
    · push_cast
      linarith
  unfold pythonRound
  rw [if_neg hfract, hround]

/-- Witness for C7: background mean 0, sigma 1,
`critical_value = e - 1` (so `k = e - 1` and `round(k) = 2`), and a series
whose normalized values are all 0 < 2: no onset. -/
theorem c7_no_onset_witness :
    detect_onset [0, 0, 0] 0 1 30 (Real.exp 1 - 1) = .ok none ∧
    (cusumList [0, 0, 0] 0 1 (pythonRound (onsetK 0 1 (Real.exp 1 - 1)))).all
      (fun c => decide (c = 0)) = true := by
  have he1 := Real.exp_one_gt_d9
  refine c7_no_onset [0, 0, 0] 0 1 30 (Real.exp 1 - 1) (by norm_num) ?_ ?_
  · intro hcon
    rw [show (0 : ℝ) + (Real.exp 1 - 1) * 1 = Real.exp 1 - 1 from by ring] at hcon
    linarith
  · intro x hx
    rw [onsetK_exp, pythonRound_exp]
    simp at hx
    rw [hx]
    push_cast
    norm_num

/-! ### C1: the cusum recurrence actually implemented -/

theorem onsetStep_c1₁ : onsetStep 0 1 2 ((0 : ℝ), (0 : ℝ)) 5 = (0, 3) := by
  have h3 : ((5 : ℝ) - 0) / 1 - ((2 : ℤ) : ℝ) + 0 = 3 := by
    push_cast
    norm_num
  show ((0 : ℝ), max (0 : ℝ) (((5 : ℝ) - 0) / 1 - ((2 : ℤ) : ℝ) + 0)) = (0, 3)
  rw [h3, max_eq_right (by norm_num : (0 : ℝ) ≤ 3)]

theorem onsetStep_c1₂ : onsetStep 0 1 2 ((0 : ℝ), (3 : ℝ)) 5 = (3, 3) := by
  have h3 : ((5 : ℝ) - 0) / 1 - ((2 : ℤ) : ℝ) + 0 = 3 := by
    push_cast
    norm_num
  show ((3 : ℝ), max (0 : ℝ) (((5 : ℝ) - 0) / 1 - ((2 : ℤ) : ℝ) + 0)) = (3, 3)
  rw [h3, max_eq_right (by norm_num : (0 : ℝ) ≤ 3)]

theorem cusumList_c1 : cusumList [0, 5, 5] 0 1 2 = [0, 3, 3] := by
  unfold cusumList
  rw [show ([0, 5, 5] : List ℝ).drop 1 = [5, 5] from rfl]
  rw [show cusumStatesAux 0 1 2 ((0 : ℝ), (0 : ℝ)) [5, 5] =
    ((0 : ℝ), (0 : ℝ)) :: cusumStatesAux 0 1 2 (onsetStep 0 1 2 (0, 0) 5) [5] from rfl]
  rw [onsetStep_c1₁]
  rw [show cusumStatesAux 0 1 2 ((0 : ℝ), (3 : ℝ)) [5] =
    ((0 : ℝ), (3 : ℝ)) :: cusumStatesAux 0 1 2 (onsetStep 0 1 2 (0, 3) 5) [] from rfl]
  rw [onsetStep_c1₂]
  rfl

theorem lag1CusumList_c1 : lag1CusumList [0, 5, 5] 0 1 2 = [0, 3, 6] := by
  have h3 : max (0 : ℝ) (((5 : ℝ) - 0) / 1 - ((2 : ℤ) : ℝ) + 0) = 3 := by
    rw [show ((5 : ℝ) - 0) / 1 - ((2 : ℤ) : ℝ) + 0 = 3 from by push_cast; norm_num]
    exact max_eq_right (by norm_num)
  unfold lag1CusumList
  rw [show ([0, 5, 5] : List ℝ).drop 1 = [5, 5] from rfl]
  rw [show lag1CusumAux 0 1 2 (0 : ℝ) [5, 5] =
    max (0 : ℝ) (((5 : ℝ) - 0) / 1 - ((2 : ℤ) : ℝ) + 0) ::
      lag1CusumAux 0 1 2 (max (0 : ℝ) (((5 : ℝ) - 0) / 1 - ((2 : ℤ) : ℝ) + 0)) [5]
    from rfl]
  rw [h3]
  have h6 : max (0 : ℝ) (((5 : ℝ) - 0) / 1 - ((2 : ℤ) : ℝ) + 3) = 6 := by
    rw [show ((5 : ℝ) - 0) / 1 - ((2 : ℤ) : ℝ) + 3 = 6 from by push_cast; norm_num]
    exact max_eq_right (by norm_num)
  rw [show lag1CusumAux 0 1 2 (3 : ℝ) [5] =
    max (0 : ℝ) (((5 : ℝ) - 0) / 1 - ((2 : ℤ) : ℝ) + 3) ::
      lag1CusumAux 0 1 2 (max (0 : ℝ) (((5 : ℝ) - 0) / 1 - ((2 : ℤ) : ℝ) + 3)) []
    from rfl]
  rw [h6]
  rfl

/-- C1 counterexample: with mean 0, sigma 1 > 0,
`critical_value = e - 1` (so the uncertainty limit differs from the mean and
`round(k) = 2`) and series `[0, 5, 5]`, the cusum values produced by the scan
are `[0, 3, 3]`, not the `[0, 3, 6]` demanded by the claimed lag-1 recurrence:
the tuple assignment adds the `previous_cusum` read *before* the update — the
cusum of step `i - 2` — not the cusum produced at step `i - 1`. -/
theorem c1_counterexample :
    (0 : ℝ) < 1 ∧ (0 : ℝ) ≠ 0 + (Real.exp 1 - 1) * 1 ∧
    cusumList [0, 5, 5] 0 1 (pythonRound (onsetK 0 1 (Real.exp 1 - 1))) ≠
      lag1CusumList [0, 5, 5] 0 1 (pythonRound (onsetK 0 1 (Real.exp 1 - 1))) := by
  have he1 := Real.exp_one_gt_d9
  have hk : pythonRound (onsetK 0 1 (Real.exp 1 - 1)) = 2 := by
    rw [onsetK_exp, pythonRound_exp]
  refine ⟨by norm_num, ?_, ?_⟩
  · intro hcon
    rw [show (0 : ℝ) + (Real.exp 1 - 1) * 1 = Real.exp 1 - 1 from by ring] at hcon
    linarith
  · rw [hk, cusumList_c1, lag1CusumList_c1]
    intro hcon
    have : (3 : ℝ) = 6 := by
      have h2 := List.tail_eq_of_cons_eq (List.tail_eq_of_cons_eq hcon)
      exact List.head_eq_of_cons_eq h2
    linarith

theorem cusumStatesAux_length (mean sigma : ℝ) (rk : ℤ) (s : ℝ × ℝ) (l : List ℝ) :
    (cusumStatesAux mean sigma rk s l).length = l.length + 1 := by
  induction l generalizing s with
  | nil => rfl
  | cons x r ih => simp [cusumStatesAux, ih]

theorem cusumStatesAux_getD_zero (mean sigma : ℝ) (rk : ℤ) (s : ℝ × ℝ) (l : List ℝ) :
    (cusumStatesAux mean sigma rk s l).getD 0 (0, 0) = s := by
  cases l <;> rfl

theorem cusumStatesAux_getD_succ (mean sigma : ℝ) (rk : ℤ) (l : List ℝ) (s : ℝ × ℝ)
    (i : ℕ) (h : i < l.length) :
    (cusumStatesAux mean sigma rk s l).getD (i + 1) (0, 0) =
      onsetStep mean sigma rk ((cusumStatesAux mean sigma rk s l).getD i (0, 0))
        (l.getD i 0) := by
  induction l generalizing s i with
  | nil => simp at h
  | cons x r ih =>
      cases i with
      | zero =>
          rw [show cusumStatesAux mean sigma rk s (x :: r) =
            s :: cusumStatesAux mean sigma rk (onsetStep mean sigma rk s x) r from rfl]
          rw [show ((s :: cusumStatesAux mean sigma rk (onsetStep mean sigma rk s x) r).getD
            (0 + 1) (0, 0)) = (cusumStatesAux mean sigma rk (onsetStep mean sigma rk s x) r).getD
            0 (0, 0) from rfl]
          rw [cusumStatesAux_getD_zero]
          rfl
      | succ j =>
          have hj : j < r.length := by simpa using h
          rw [show cusumStatesAux mean sigma rk s (x :: r) =
            s :: cusumStatesAux mean sigma rk (onsetStep mean sigma rk s x) r from rfl]
          rw [show ((s :: cusumStatesAux mean sigma rk (onsetStep mean sigma rk s x) r).getD
            (j + 1 + 1) (0, 0)) = (cusumStatesAux mean sigma rk
              (onsetStep mean sigma rk s x) r).getD (j + 1) (0, 0) from rfl]
          rw [ih (onsetStep mean sigma rk s x) j hj]
          rfl

theorem mapSnd_getD (S : List (ℝ × ℝ)) (j : ℕ) (h : j < S.length) :
    (S.map Prod.snd).getD j 0 = (S.getD j (0, 0)).2 := by
  rw [List.getD_eq_getElem _ _ (by simpa using h), List.getD_eq_getElem _ _ h,
    List.getElem_map]

theorem drop_one_getD (v : List ℝ) (j : ℕ) (hj : j + 1 < v.length) :
    (v.drop 1).getD j 0 = v.getD (j + 1) 0 := by
  rw [List.getD_eq_getElem _ _ (by rw [List.length_drop]; omega),
    List.getD_eq_getElem _ _ hj, List.getElem_drop]
  congr 1
  omega

/-- C1 amended: the scan maintains a lag-2 recurrence, not the claimed lag-1
one: with `cusum_0 = 0` (and a virtual `cusum_(-1) = 0`), the cusum produced
at step `i + 2` is `max(0, normalized_(i+2) - round(k) + cusum_i)` — the
cusum carried in is the one produced two steps earlier, because the tuple
assignment reads `previous_cusum` before updating it; step 1 adds the initial
0. -/
theorem c1_amended_lag2 (v : List ℝ) (mean sigma : ℝ) (rk : ℤ) (i : ℕ)
    (h : i + 2 < (cusumList v mean sigma rk).length) :
    (cusumList v mean sigma rk).getD (i + 2) 0 =
      max 0 ((v.getD (i + 2) 0 - mean) / sigma - (rk : ℝ) +
        (cusumList v mean sigma rk).getD i 0) ∧
    (cusumList v mean sigma rk).getD 0 0 = 0 ∧
    (cusumList v mean sigma rk).getD 1 0 =
      max 0 ((v.getD 1 0 - mean) / sigma - (rk : ℝ) + 0) := by
  have hlen : (cusumList v mean sigma rk).length = (v.drop 1).length + 1 := by
    unfold cusumList
    rw [List.length_map, cusumStatesAux_length]
  have hdl : i + 1 < (v.drop 1).length := by omega
  have hvl : (v.drop 1).length = v.length - 1 := by rw [List.length_drop]
  have hSlen : i + 2 < (cusumStatesAux mean sigma rk (0, 0) (v.drop 1)).length := by
    rw [cusumStatesAux_length]
    omega
  have hmap : ∀ j, j < (cusumStatesAux mean sigma rk (0, 0) (v.drop 1)).length →
      (cusumList v mean sigma rk).getD j 0 =
        ((cusumStatesAux mean sigma rk (0, 0) (v.drop 1)).getD j (0, 0)).2 := by
    intro j hjl
    unfold cusumList
    exact mapSnd_getD _ j hjl
  refine ⟨?_, ?_, ?_⟩
  · rw [hmap (i + 2) hSlen, hmap i (by omega)]
    rw [show i + 2 = (i + 1) + 1 from rfl,
      cusumStatesAux_getD_succ mean sigma rk (v.drop 1) (0, 0) (i + 1) hdl]
    rw [cusumStatesAux_getD_succ mean sigma rk (v.drop 1) (0, 0) i (by omega)]
    rw [drop_one_getD v (i + 1) (by omega)]
    rfl
  · rw [hmap 0 (by rw [cusumStatesAux_length]; omega), cusumStatesAux_getD_zero]
  · rw [hmap 1 (by rw [cusumStatesAux_length]; omega)]
    rw [show (1 : ℕ) = 0 + 1 from rfl,
      cusumStatesAux_getD_succ mean sigma rk (v.drop 1) (0, 0) 0 (by omega)]
    rw [cusumStatesAux_getD_zero]
    rw [drop_one_getD v 0 (by omega)]
    rfl

/-- Witness for C1 (amended) at the series `[0, 5, 5, 7]`, mean 0, sigma 1,
`round(k) = 2`, step index 2 = 0 + 2. -/
theorem c1_amended_lag2_witness :
    (cusumList [(0 : ℝ), 5, 5, 7] 0 1 2).getD (0 + 2) 0 =
      max 0 (([(0 : ℝ), 5, 5, 7].getD (0 + 2) 0 - 0) / 1 - ((2 : ℤ) : ℝ) +
        (cusumList [(0 : ℝ), 5, 5, 7] 0 1 2).getD 0 0) ∧
    (cusumList [(0 : ℝ), 5, 5, 7] 0 1 2).getD 0 0 = 0 ∧
    (cusumList [(0 : ℝ), 5, 5, 7] 0 1 2).getD 1 0 =
      max 0 (([(0 : ℝ), 5, 5, 7].getD 1 0 - 0) / 1 - ((2 : ℤ) : ℝ) + 0) :=
  c1_amended_lag2 [(0 : ℝ), 5, 5, 7] 0 1 2 0
    (by unfold cusumList; rw [List.length_map, cusumStatesAux_length]; norm_num)
